import Mathlib

/-!
Verification of the lean-cli local API shim: the route dispatcher's
response envelope (`api_server.py`), the project server's read/update/create
handlers (`project_server.py`), and the data-file downloader
(`data_downloader.py`), shallowly embedded as executable Lean functions.

Python dicts are modelled as association lists with first-match lookup and
in-place update (insertion appends at the end, assignment to an existing key
replaces it in place), which matches CPython insertion-ordered dicts.
-/

set_option autoImplicit false

namespace LeanCLI

/-- First-match lookup in a Python-style dict modelled as an association list. -/
def lookupKey {κ α : Type} [DecidableEq κ] : List (κ × α) → κ → Option α
  | [], _ => none
  | (k2, v) :: rest, k => if k2 = k then some v else lookupKey rest k

/-- Python dict assignment `d[k] = v`: replaces the first binding of `k` in
place, or appends a new binding at the end if `k` is absent. -/
def dictSet {κ α : Type} [DecidableEq κ] : List (κ × α) → κ → α → List (κ × α)
  | [], k, v => [(k, v)]
  | (k2, v2) :: rest, k, v =>
      if k2 = k then (k, v) :: rest else (k2, v2) :: dictSet rest k v

/-- Python membership test `k in d`. -/
def hasKey {κ α : Type} [DecidableEq κ] (l : List (κ × α)) (k : κ) : Bool :=
  (lookupKey l k).isSome

theorem lookupKey_dictSet {κ α : Type} [DecidableEq κ]
    (l : List (κ × α)) (k k2 : κ) (v : α) :
    lookupKey (dictSet l k v) k2 = if k2 = k then some v else lookupKey l k2 := by
  induction l with
  | nil =>
      by_cases h : k2 = k
      · subst h; simp [dictSet, lookupKey]
      · simp [dictSet, lookupKey, h, Ne.symm h]
  | cons hd tl ih =>
      obtain ⟨k3, v3⟩ := hd
      by_cases h3 : k3 = k
      · subst h3
        by_cases h : k2 = k3
        · subst h; simp [dictSet, lookupKey]
        · simp [dictSet, lookupKey, h, Ne.symm h]
      · by_cases h : k3 = k2
        · subst h
          simp [dictSet, h3, lookupKey, Ne.symm h3]
        · simp [dictSet, h3, lookupKey, h, ih]

theorem dictSet_absent {κ α : Type} [DecidableEq κ]
    (l : List (κ × α)) (k : κ) (v : α) (h : lookupKey l k = none) :
    dictSet l k v = l ++ [(k, v)] := by
  induction l with
  | nil => simp [dictSet]
  | cons hd tl ih =>
      obtain ⟨k2, v2⟩ := hd
      by_cases h2 : k2 = k
      · simp [lookupKey, h2] at h
      · simp [lookupKey, h2] at h
        simp [dictSet, h2, ih h]

theorem lookupKey_append_left {κ α : Type} [DecidableEq κ]
    (l l2 : List (κ × α)) (k : κ) (v : α) (h : lookupKey l k = some v) :
    lookupKey (l ++ l2) k = some v := by
  induction l with
  | nil => simp [lookupKey] at h
  | cons hd tl ih =>
      obtain ⟨k2, v2⟩ := hd
      by_cases h2 : k2 = k
      · simpa [lookupKey, h2] using h
      · simp [lookupKey, h2] at h ⊢
        exact ih h

theorem lookupKey_append_none {κ α : Type} [DecidableEq κ]
    (l : List (κ × α)) (l2 : List (κ × α)) (k : κ) (h : lookupKey l k = none) :
    lookupKey (l ++ l2) k = lookupKey l2 k := by
  induction l with
  | nil => simp
  | cons hd tl ih =>
      obtain ⟨k2, v2⟩ := hd
      by_cases h2 : k2 = k
      · simp [lookupKey, h2] at h
      · simp [lookupKey, h2] at h ⊢
        exact ih h

/-! ## JSON values and the route dispatcher envelope (`api_server.py`) -/

/-- A JSON value, as produced by the Flask handlers of the local server. -/
inductive JValue where
  | str (s : String)
  | bool (b : Bool)
  | num (n : Int)
  | arr (elems : List JValue)
  | obj (fields : List (String × JValue))

/-- A JSON object body: the top level of every handler response. -/
abbrev JObject := List (String × JValue)

/-- `APIServer._after_request` (body part): if the JSON body has no
`success` field, set `success` to `true`; a `success` field set by the
handler is never overwritten.  (The CORS headers the real method also
injects are not part of the body and are not modelled.) -/
def after_request (body : JObject) : JObject :=
  if hasKey body "success" then body
  else dictSet body "success" (JValue.bool true)

/-- `APIServer._error_handler`: the envelope returned for any unhandled
exception escaping a handler. -/
def error_handler (msg : String) : JObject :=
  [("errors", JValue.arr [JValue.str msg]), ("success", JValue.bool false)]

/-- The outcome of running a route handler: a JSON body, or an unhandled
exception with its message. -/
inductive HandlerOutcome where
  | ok (body : JObject)
  | fail (msg : String)

/-- The dispatcher boundary: a successful body passes through
`after_request`; an unhandled failure is converted by `error_handler`
(whose response also passes through `after_request`, as Flask applies
after-request hooks to error responses too). -/
def dispatch : HandlerOutcome → JObject
  | .ok body => after_request body
  | .fail msg => after_request (error_handler msg)

/-- Claim C1: on a successful handler return the dispatcher injects
`success: true` only if the handler did not already set a `success` field
(never overwriting one that is present), and on any unhandled handler
failure it returns exactly the body
`errors: [message], success: false` with a non-empty `errors` list. -/
theorem C1_dispatch_envelope :
    (∀ body : JObject, hasKey body "success" = false →
        dispatch (.ok body) = body ++ [("success", JValue.bool true)]) ∧
    (∀ body : JObject, hasKey body "success" = true →
        dispatch (.ok body) = body) ∧
    (∀ msg : String, dispatch (.fail msg) =
        [("errors", JValue.arr [JValue.str msg]), ("success", JValue.bool false)]) ∧
    (∀ msg : String, ∃ errs : List JValue,
        lookupKey (dispatch (.fail msg)) "errors" = some (JValue.arr errs) ∧ errs ≠ []) := by
  refine ⟨?_, ?_, ?_, ?_⟩
  · intro body h
    have hnone : lookupKey body "success" = none := by
      simpa [hasKey, Option.isSome_iff_exists] using h
    simp [dispatch, after_request, h, dictSet_absent body _ _ hnone]
  · intro body h
    simp [dispatch, after_request, h]
  · intro msg
    simp [dispatch, after_request, error_handler, hasKey, lookupKey]
  · intro msg
    refine ⟨[JValue.str msg], ?_, by simp⟩
    simp [dispatch, after_request, error_handler, hasKey, lookupKey]

/-- Concrete instance of C1: a handler body without a `success` field gets
`success: true` appended. -/
theorem C1_dispatch_envelope_witness :
    dispatch (.ok [("n", JValue.num 1)]) =
      [("n", JValue.num 1), ("success", JValue.bool true)] :=
  C1_dispatch_envelope.1 [("n", JValue.num 1)] (by decide)

/-! ## Data file downloader (`data_downloader.py`) -/

/-- `hay` starts with `needle`, on character lists. -/
def charsStartWith : List Char → List Char → Bool
  | _, [] => true
  | [], _ :: _ => false
  | c :: cs, d :: ds => c == d && charsStartWith cs ds

/-- `needle` occurs as a contiguous substring of `hay`, on character lists. -/
def charsContain : List Char → List Char → Bool
  | [], needle => needle.isEmpty
  | c :: rest, needle => charsStartWith (c :: rest) needle || charsContain rest needle

/-- Python's `needle in hay` on strings. -/
def strContains (hay needle : String) : Bool :=
  charsContain hay.data needle.data

/-- Result of `api_client.data.download_file`: the file bytes, or a
`RequestFailedError` carrying its message. -/
inductive FetchResult where
  | ok (content : List Nat)
  | requestFailed (msg : String)

/-- The downloader's external collaborators for one run: the remote fetch oracle
and the answer the user gives to the single confirmation prompt. -/
structure DLEnv where
  fetch : String → FetchResult
  answer : Bool

/-- Observable interactions of one downloader run, in order: the per-file
progress line, the already-exists warning, the confirmation prompt, and the
not-billed warning for a missing remote file. -/
inductive DLEvent where
  | info (i n : Nat) (file : String)
  | warnExists (path : String)
  | prompt
  | warnNotBilled (file : String)

/-- Mutable state of one `DataDownloader` run: the cached tri-state
overwrite decision (`_force_overwrite`), the local data directory contents,
and the interaction log. -/
structure DLState where
  forceOverwrite : Option Bool
  localFiles : List (String × List Nat)
  log : List DLEvent

def pushLog (st : DLState) (e : DLEvent) : DLState :=
  { st with log := st.log ++ [e] }

/-- `DataDownloader._should_overwrite`: returns immediately if the flag or
the cached decision is truthy; otherwise warns, prompts only when the cached
decision is unset, caches the answer, and returns the cached decision. -/
def should_overwrite (env : DLEnv) (overwrite_flag : Bool) (path : String)
    (st : DLState) : Bool × DLState :=
  if overwrite_flag || st.forceOverwrite.getD false then (true, st)
  else
    let st1 := pushLog st (.warnExists path)
    match st1.forceOverwrite with
    | none =>
        let st2 := { pushLog st1 .prompt with forceOverwrite := some env.answer }
        (env.answer, st2)
    | some b => (b, st1)

/-- The fetch-and-write tail of `DataDownloader._download_file`
(the `try`/`except` block and the final write): a remote failure whose
message contains `File not found` is logged as a not-billed warning and
swallowed; any other failure propagates; on success the bytes are written,
overwriting any existing content. -/
def fetch_and_write (env : DLEnv) (relative_file : String) (st : DLState) :
    Except (String × DLState) DLState :=
  match env.fetch relative_file with
  | .ok content =>
      .ok { st with localFiles := dictSet st.localFiles relative_file content }
  | .requestFailed msg =>
      if strContains msg "File not found" then
        .ok (pushLog st (.warnNotBilled relative_file))
      else
        .error (msg, st)

/-- `DataDownloader._download_file`: skip when the local copy exists and
overwriting is not permitted, otherwise fetch and write.  (The local data
directory prefix and the billing organization id are opaque here: files are
addressed by their relative path.) -/
def download_file (env : DLEnv) (relative_file : String) (overwrite_flag : Bool)
    (st : DLState) : Except (String × DLState) DLState :=
  if (lookupKey st.localFiles relative_file).isSome then
    let r := should_overwrite env overwrite_flag relative_file st
    if r.1 then fetch_and_write env relative_file r.2 else .ok r.2
  else
    fetch_and_write env relative_file st

/-- The loop body of `DataDownloader.download_files`, logging `[i/n]`
progress before each file. -/
def download_loop (env : DLEnv) (overwrite_flag : Bool) (total : Nat) :
    List String → Nat → DLState → Except (String × DLState) DLState
  | [], _, st => .ok st
  | file :: rest, index, st =>
      let st1 := pushLog st (.info (index + 1) total file)
      match download_file env file overwrite_flag st1 with
      | .ok st2 => download_loop env overwrite_flag total rest (index + 1) st2
      | .error e => .error e

/-- `DataDownloader.download_files`. -/
def download_files (env : DLEnv) (files : List String) (overwrite_flag : Bool)
    (st : DLState) : Except (String × DLState) DLState :=
  download_loop env overwrite_flag files.length files 0 st

/-- The downloader state at the end of a run, whether it completed or
aborted with a propagated error. -/
def finalState : Except (String × DLState) DLState → DLState
  | .ok st => st
  | .error e => e.2

def isPrompt : DLEvent → Bool
  | .prompt => true
  | _ => false

/-- Number of confirmation prompts shown in a log. -/
def promptCount (log : List DLEvent) : Nat :=
  (log.filter isPrompt).length

theorem promptCount_append (l l2 : List DLEvent) :
    promptCount (l ++ l2) = promptCount l + promptCount l2 := by
  simp [promptCount, List.filter_append]

theorem promptCount_prompt : promptCount [DLEvent.prompt] = 1 := rfl

theorem promptCount_info (i n : Nat) (f : String) :
    promptCount [DLEvent.info i n f] = 0 := rfl

theorem promptCount_warnExists (p : String) :
    promptCount [DLEvent.warnExists p] = 0 := rfl

theorem promptCount_warnNotBilled (f : String) :
    promptCount [DLEvent.warnNotBilled f] = 0 := rfl

theorem promptCount_warnExists_prompt (p : String) :
    promptCount [DLEvent.warnExists p, DLEvent.prompt] = 1 := rfl

/-- Invariant tying the cached overwrite decision to the number of prompts
shown so far: unset means no prompt yet, and there is never more than one. -/
def PromptInv (st : DLState) : Prop :=
  promptCount st.log ≤ 1 ∧ (st.forceOverwrite = none → promptCount st.log = 0)

theorem should_overwrite_inv (env : DLEnv) (flag : Bool) (path : String)
    (st : DLState) (h : PromptInv st) :
    PromptInv (should_overwrite env flag path st).2 := by
  obtain ⟨h1, h2⟩ := h
  unfold should_overwrite
  by_cases hc : (flag || st.forceOverwrite.getD false) = true
  · simpa [hc] using ⟨h1, h2⟩
  · simp only [hc, if_false, Bool.false_eq_true]
    cases hfo : st.forceOverwrite with
    | none =>
        refine ⟨?_, ?_⟩
        · simp [pushLog, hfo, promptCount_append, promptCount_prompt,
            promptCount_warnExists, promptCount_warnExists_prompt, h2 hfo]
        · intro hnone
          simp [pushLog, hfo] at hnone
    | some b =>
        refine ⟨?_, ?_⟩
        · simpa [pushLog, hfo, promptCount_append, promptCount_warnExists] using h1
        · intro hnone
          simp [pushLog, hfo] at hnone

theorem fetch_and_write_inv (env : DLEnv) (file : String) (st : DLState)
    (h : PromptInv st) : PromptInv (finalState (fetch_and_write env file st)) := by
  obtain ⟨h1, h2⟩ := h
  unfold fetch_and_write
  cases env.fetch file with
  | ok content => exact ⟨h1, h2⟩
  | requestFailed msg =>
      by_cases hm : strContains msg "File not found" = true
      · refine ⟨?_, ?_⟩
        · simpa [hm, finalState, pushLog, promptCount_append,
            promptCount_warnNotBilled] using h1
        · intro hn
          simp only [hm, if_true, finalState, pushLog] at hn ⊢
          simp [promptCount_append, promptCount_warnNotBilled, h2 hn]
      · simp only [Bool.not_eq_true] at hm
        simpa [hm, finalState] using ⟨h1, h2⟩

theorem download_file_inv (env : DLEnv) (file : String) (flag : Bool)
    (st : DLState) (h : PromptInv st) :
    PromptInv (finalState (download_file env file flag st)) := by
  unfold download_file
  by_cases he : (lookupKey st.localFiles file).isSome = true
  · simp only [he, if_true]
    have hso := should_overwrite_inv env flag file st h
    by_cases hov : (should_overwrite env flag file st).1 = true
    · simp only [hov, if_true]
      exact fetch_and_write_inv env file _ hso
    · simp only [Bool.not_eq_true] at hov
      simpa [hov, finalState] using hso
  · simp only [Bool.not_eq_true] at he
    simp only [he, Bool.false_eq_true, if_false]
    exact fetch_and_write_inv env file st h

theorem download_loop_inv (env : DLEnv) (flag : Bool) (total : Nat)
    (files : List String) :
    ∀ (index : Nat) (st : DLState), PromptInv st →
      PromptInv (finalState (download_loop env flag total files index st)) := by
  induction files with
  | nil => intro index st h; simpa [download_loop, finalState] using h
  | cons file rest ih =>
      intro index st h
      have h1 : PromptInv (pushLog st (.info (index + 1) total file)) := by
        obtain ⟨ha, hb⟩ := h
        constructor
        · simpa [pushLog, promptCount_append, promptCount_info] using ha
        · intro hn
          simp only [pushLog] at hn ⊢
          simp [promptCount_append, promptCount_info, hb hn]
      have h2 := download_file_inv env file flag (pushLog st (.info (index + 1) total file)) h1
      unfold download_loop
      cases hdf : download_file env file flag (pushLog st (.info (index + 1) total file)) with
      | ok st2 =>
          simp only [hdf]
          exact ih (index + 1) st2 (by simpa [hdf, finalState] using h2)
      | error e =>
          simpa [hdf, finalState] using (by simpa [hdf, finalState] using h2 : PromptInv e.2)

/-- Claim C9: with overwrite not permitted by the flag, the confirmation
prompt is shown at most once per run; the first already-existing file
triggers it and the answer is cached; a cached `no` makes every later
existing file be skipped with only a warning and no second prompt; and a
file that does not exist locally is always fetched and written regardless
of the overwrite flag and of the cached decision. -/
theorem C9_overwrite_prompt_once :
    (∀ (env : DLEnv) (files : List String) (flag : Bool)
        (localFiles0 : List (String × List Nat)),
        promptCount (finalState (download_files env files flag
          { forceOverwrite := none, localFiles := localFiles0, log := [] })).log ≤ 1) ∧
    (∀ (env : DLEnv) (st : DLState) (file : String) (c : List Nat),
        st.forceOverwrite = none →
        lookupKey st.localFiles file = some c →
        should_overwrite env false file st =
          (env.answer,
            { st with log := st.log ++ [DLEvent.warnExists file, DLEvent.prompt],
                      forceOverwrite := some env.answer })) ∧
    (∀ (env : DLEnv) (st : DLState) (file : String) (c : List Nat),
        st.forceOverwrite = none → env.answer = false →
        lookupKey st.localFiles file = some c →
        download_file env file false st =
          .ok { st with log := st.log ++ [DLEvent.warnExists file, DLEvent.prompt],
                        forceOverwrite := some false }) ∧
    (∀ (env : DLEnv) (st : DLState) (file : String) (c : List Nat),
        st.forceOverwrite = some false →
        lookupKey st.localFiles file = some c →
        download_file env file false st =
          .ok { st with log := st.log ++ [DLEvent.warnExists file] }) ∧
    (∀ (env : DLEnv) (st : DLState) (file : String) (content : List Nat) (flag : Bool),
        lookupKey st.localFiles file = none →
        env.fetch file = .ok content →
        download_file env file flag st =
          .ok { st with localFiles := dictSet st.localFiles file content }) := by
  refine ⟨?_, ?_, ?_, ?_, ?_⟩
  · intro env files flag localFiles0
    exact (download_loop_inv env flag files.length files 0
      { forceOverwrite := none, localFiles := localFiles0, log := [] }
      ⟨by simp [promptCount], fun _ => by simp [promptCount]⟩).1
  · intro env st file c hfo hl
    simp [should_overwrite, hfo, pushLog]
  · intro env st file c hfo hans hl
    simp [download_file, hl, should_overwrite, hfo, pushLog, hans]
  · intro env st file c hfo hl
    simp [download_file, hl, should_overwrite, hfo, pushLog]
  · intro env st file content flag hl hf
    simp [download_file, hl, fetch_and_write, hf]

/-- Concrete instance of C9: with `a.zip` present locally, flag off and a
cached `no` unset, the prompt is logged once and answering no skips the
file; `b.zip`, absent locally, is written regardless of the flag. -/
theorem C9_overwrite_prompt_once_witness :
    download_file ⟨fun _ => FetchResult.ok [7], false⟩ "a.zip" false
        ⟨none, [("a.zip", [1])], []⟩ =
      .ok ⟨some false, [("a.zip", [1])], [DLEvent.warnExists "a.zip", DLEvent.prompt]⟩ ∧
    download_file ⟨fun _ => FetchResult.ok [7], false⟩ "b.zip" false
        ⟨none, [("a.zip", [1])], []⟩ =
      .ok ⟨none, [("a.zip", [1]), ("b.zip", [7])], []⟩ := by
  constructor
  · have := C9_overwrite_prompt_once.2.2.1 ⟨fun _ => FetchResult.ok [7], false⟩
      ⟨none, [("a.zip", [1])], []⟩ "a.zip" [1] rfl rfl (by decide)
    simpa using this
  · have := C9_overwrite_prompt_once.2.2.2.2 ⟨fun _ => FetchResult.ok [7], false⟩
      ⟨none, [("a.zip", [1])], []⟩ "b.zip" [7] false (by decide) rfl
    simpa using this

/-- Claim C8: within one batch, a remote failure whose message contains
`File not found` only logs the not-billed warning and processing continues
with the next file (local files and the cached decision untouched), while
any other remote failure aborts the whole batch with that message. -/
theorem C8_not_found_is_skippable :
    ∀ (env : DLEnv) (flag : Bool) (st : DLState) (file : String)
      (rest : List String) (index total : Nat) (msg : String),
      lookupKey st.localFiles file = none →
      env.fetch file = .requestFailed msg →
      ((strContains msg "File not found" = true →
          download_loop env flag total (file :: rest) index st =
            download_loop env flag total rest (index + 1)
              { st with log := st.log ++
                  [DLEvent.info (index + 1) total file, DLEvent.warnNotBilled file] }) ∧
       (strContains msg "File not found" = false →
          download_loop env flag total (file :: rest) index st =
            .error (msg,
              { st with log := st.log ++ [DLEvent.info (index + 1) total file] }))) := by
  intro env flag st file rest index total msg hl hf
  constructor
  · intro hm
    simp [download_loop, download_file, pushLog, hl, fetch_and_write, hf, hm]
  · intro hm
    simp [download_loop, download_file, pushLog, hl, fetch_and_write, hf, hm]

/-- Concrete instance of C8: a `File not found` failure on `a.zip` leaves
the batch running on `b.zip`; a different failure aborts immediately. -/
theorem C8_not_found_is_skippable_witness :
    download_loop ⟨fun _ => FetchResult.requestFailed "File not found: a.zip", false⟩
        false 2 ["a.zip", "b.zip"] 0 ⟨none, [], []⟩ =
      download_loop ⟨fun _ => FetchResult.requestFailed "File not found: a.zip", false⟩
        false 2 ["b.zip"] 1
        ⟨none, [], [DLEvent.info 1 2 "a.zip", DLEvent.warnNotBilled "a.zip"]⟩ ∧
    download_loop ⟨fun _ => FetchResult.requestFailed "quota exceeded", false⟩
        false 2 ["a.zip", "b.zip"] 0 ⟨none, [], []⟩ =
      .error ("quota exceeded", ⟨none, [], [DLEvent.info 1 2 "a.zip"]⟩) := by
  constructor
  · have := (C8_not_found_is_skippable
      ⟨fun _ => FetchResult.requestFailed "File not found: a.zip", false⟩
      false ⟨none, [], []⟩ "a.zip" ["b.zip"] 0 2 "File not found: a.zip"
      rfl rfl).1 (by decide)
    simpa using this
  · have := (C8_not_found_is_skippable
      ⟨fun _ => FetchResult.requestFailed "quota exceeded", false⟩
      false ⟨none, [], []⟩ "a.zip" ["b.zip"] 0 2 "quota exceeded"
      rfl rfl).2 (by decide)
    simpa using this

/-! ## Project server data model (`project_server.py`)

Paths are modelled as strings relative to the working root, so joining the
root with a relative name is the identity on the stripped name.  Timestamps
are modelled as nanosecond epoch instants: `datetime.fromtimestamp(ns /
1e9).astimezone(timezone.utc)` changes the representation of an instant to
UTC but not the instant itself, so max/min selection is carried out on the
`st_mtime_ns` / `st_ctime_ns` values.  The fabricated constant fields of the
returned record (organization id, collaborator entry, lean version pin,
live-results stub) carry no claim content and are omitted. -/

/-- A value stored under one key of a project's sidecar config: a plain
string, or a nested string-to-string map (the `parameters` key). -/
inductive CVal where
  | str (s : String)
  | map (entries : List (String × String))
deriving DecidableEq

/-- One project's sidecar config: a persisted key/value store. -/
abbrev Config := List (String × CVal)

/-- `ProjectConfig.get(key, default)`. -/
def Config.get (c : Config) (key : String) (dflt : CVal) : CVal :=
  (lookupKey c key).getD dflt

/-- `ProjectConfig.set(key, value)`. -/
def Config.set (c : Config) (key : String) (v : CVal) : Config :=
  dictSet c key v

/-- The string stored in a config value (sidecar values read as strings). -/
def CVal.strD : CVal → String
  | .str s => s
  | .map _ => ""

/-- The nested map stored in a config value (the `parameters` key). -/
def CVal.mapD : CVal → List (String × String)
  | .map m => m
  | .str _ => []

/-- Modelled from the spec: the `QCLanguage` enum of `lean.models.api` is
not among the sources; the spec fixes its declared members to the closed
set of variants Python and CSharp. -/
inductive QCLanguage where
  | Python
  | CSharp
deriving DecidableEq

/-- The `__members__` table of the language enum: member name paired with
the member, in declaration order. -/
def QCLanguage.members : List (String × QCLanguage) :=
  [("Python", QCLanguage.Python), ("CSharp", QCLanguage.CSharp)]

/-- The error kinds a project handler can raise; the dispatcher turns each
into the uniform error envelope. -/
inductive Err where
  | notFound
  | conflict
  | invalidState
  | keyError
deriving DecidableEq

/-- `next(v for k, v in QCLanguage.__members__.items() if k ==
project_language)`: exact member-name lookup; a missing member raises
(InvalidState), it never substitutes a default. -/
def lookupLanguage (stored : String) : Except Err QCLanguage :=
  match QCLanguage.members.find? (fun kv => kv.1 == stored) with
  | some kv => .ok kv.2
  | none => .error .invalidState

/-- An `os.stat_result` restricted to the fields the server reads. -/
structure Stat where
  st_mtime_ns : Int
  st_ctime_ns : Int
deriving DecidableEq

/-- Modelled from the spec: the external file-sync enumerator
(`ProjectManager.get_files_to_sync`) and the filesystem stat calls are
oracles mapping a project directory to the stat records of its tracked
files and to the directory's own stat record. -/
structure PEnv where
  filesToSync : String → List Stat
  dirStat : String → Stat

/-- The filesystem state under the working root: project directories,
sidecar configs keyed by directory, and the local-id store with its next
fresh id. -/
structure FS where
  dirs : List String
  configs : List (String × Config)
  ids : List (String × Nat)
  nextId : Nat
deriving DecidableEq

/-- Modelled from the spec: `ProjectConfigManager.get_local_id` resolves
the integer id stored for a directory, assigning and persisting a fresh one
on first use; the id stays stable until the directory is deleted. -/
def get_local_id (fs : FS) (dir : String) : Nat × FS :=
  match lookupKey fs.ids dir with
  | some i => (i, fs)
  | none =>
      (fs.nextId,
        { fs with ids := fs.ids ++ [(dir, fs.nextId)], nextId := fs.nextId + 1 })

/-- `ProjectConfigManager.get_project_config`: the sidecar store of a
directory (empty for a directory without one). -/
def get_project_config (fs : FS) (dir : String) : Config :=
  (lookupKey fs.configs dir).getD []

/-- Writing one sidecar key of one project. -/
def setProjectConfig (fs : FS) (dir key : String) (v : CVal) : FS :=
  { fs with configs := dictSet fs.configs dir (Config.set (get_project_config fs dir) key v) }

/-- Python `int(...)` on a request value, restricted to the non-negative
decimal numerals local project ids are rendered as; any other string raises
(modelled as `none`). -/
def parseNat? (s : String) : Option Nat :=
  if s.data.isEmpty then none
  else if s.data.all Char.isDigit then
    some (s.data.foldl (fun n c => n * 10 + (c.toNat - '0'.toNat)) 0)
  else none

/-- Modelled from the spec: `ProjectManager.find_project_by_id` maps a
local id back to its project directory and fails with NotFound when the id
is unresolvable. -/
def find_project_by_id (fs : FS) (pid : Nat) : Except Err String :=
  match fs.ids.find? (fun kv => kv.2 == pid) with
  | some kv => .ok kv.1
  | none => .error .notFound

/-- Python `max` over a nonempty list (`0` is never reached: callers pass
nonempty lists, as `max`/`min` raise on empty input). -/
def listMax : List Int → Int
  | [] => 0
  | x :: xs => xs.foldl max x

/-- Python `min` over a nonempty list. -/
def listMin : List Int → Int
  | [] => 0
  | x :: xs => xs.foldl min x

/-- The claim-relevant fields of the `QCProject` record built by
`ProjectServer._create_project`. -/
structure QCProjectRec where
  projectId : Nat
  name : String
  description : String
  modified : Int
  created : Int
  language : QCLanguage
  parameters : List (String × String)
deriving DecidableEq

/-- `ProjectServer._create_project`: derive the externally-shaped metadata
record of one project directory; raises (InvalidState) when the stored
language string matches no declared enum member. -/
def create_project (env : PEnv) (fs : FS) (project_dir : String) :
    Except (Err × FS) (QCProjectRec × FS) :=
  let r := get_local_id fs project_dir
  let fs1 := r.2
  let project_config := get_project_config fs1 project_dir
  let project_language := (Config.get project_config "language" (CVal.str "Python")).strD
  let stats0 := env.filesToSync project_dir
  let stats := if stats0.length = 0 then [env.dirStat project_dir] else stats0
  match lookupLanguage project_language with
  | .error e => .error (e, fs1)
  | .ok lang =>
      .ok ({ projectId := r.1,
             name := project_dir,
             description := (Config.get project_config "description" (CVal.str "")).strD,
             modified := listMax (stats.map Stat.st_mtime_ns),
             created := listMin (stats.map Stat.st_ctime_ns),
             language := lang,
             parameters := (Config.get project_config "parameters" (CVal.map [])).mapD },
           fs1)

/-- The directories under the working root that contain a project sidecar
file (`cli_root.rglob(PROJECT_CONFIG_FILE_NAME)` parents). -/
def sidecarDirs (fs : FS) : List String :=
  fs.configs.map Prod.fst

/-- The list comprehension of `ProjectServer._projects_read` for the
list-all case, threading the id store through `_create_project`. -/
def create_projects (env : PEnv) :
    List String → FS → Except (Err × FS) (List QCProjectRec × FS)
  | [], fs => .ok ([], fs)
  | d :: ds, fs =>
      match create_project env fs d with
      | .error e => .error e
      | .ok (r, fs1) =>
          match create_projects env ds fs1 with
          | .error e => .error e
          | .ok (rs, fs2) => .ok (r :: rs, fs2)

/-- The keys the project handlers read from the request dict `g.input`.
The indexed parameter keys stand for the strings
`parameters[i][key]` / `parameters[i][value]`; decimal rendering of the
index is injective, which the constructor model reflects. -/
inductive GKey where
  | projectId
  | description
  | parameters
  | name
  | language
  | paramKey (i : Nat)
  | paramVal (i : Nat)
deriving DecidableEq

/-- The request dict `g.input`. -/
abbrev Input := List (GKey × String)

def lookupInput (input : Input) (k : GKey) : Option String :=
  lookupKey input k

/-- `ProjectServer._projects_read`. -/
def projects_read (env : PEnv) (input : Input) (fs : FS) :
    Except (Err × FS) (List QCProjectRec × FS) :=
  match lookupInput input GKey.projectId with
  | some pidStr =>
      match parseNat? pidStr with
      | none => .error (Err.keyError, fs)
      | some pid =>
          match find_project_by_id fs pid with
          | .error e => .error (e, fs)
          | .ok dir =>
              match create_project env fs dir with
              | .error e => .error e
              | .ok (r, fs1) => .ok ([r], fs1)
  | none => create_projects env (sidecarDirs fs) fs

/-- The `while f"parameters[Lindex][key]" in g.input` loop of
`ProjectServer._projects_update`, building the replacement parameter dict.
The fuel argument bounds the iteration count; the loop advances only while
a fresh indexed key is present in the finite request dict, so any fuel
above the dict size is sufficient and callers pass `input.length + 1`. -/
def collect_parameters (input : Input) :
    Nat → Nat → List (String × String) → Except Err (List (String × String))
  | 0, _, acc => .ok acc
  | fuel + 1, index, acc =>
      match lookupInput input (GKey.paramKey index) with
      | none => .ok acc
      | some k =>
          match lookupInput input (GKey.paramVal index) with
          | none => .error .keyError
          | some v => collect_parameters input fuel (index + 1) (dictSet acc k v)

/-- Python `str.lstrip("/")`: drop every leading `/` character. -/
def lstripSlashAux : List Char → List Char
  | [] => []
  | c :: rest => if c == '/' then lstripSlashAux rest else c :: rest

def lstripSlash (s : String) : String :=
  ⟨lstripSlashAux s.data⟩

/-- `shutil.move(project_dir, new_dir)`: the directory entry, its sidecar
config and its stored local id all move with the directory. -/
def moveDir (fs : FS) (oldDir newDir : String) : FS :=
  { fs with
    dirs := fs.dirs.map (fun d => if d = oldDir then newDir else d),
    configs := fs.configs.map (fun kv => if kv.1 = oldDir then (newDir, kv.2) else kv),
    ids := fs.ids.map (fun kv => if kv.1 = oldDir then (newDir, kv.2) else kv) }

/-- `ProjectServer._projects_update`: resolve the project, then apply the
description block, the parameters block, and the rename block in source
order; an error propagates with the filesystem as mutated so far. -/
def projects_update (input : Input) (fs : FS) : Except (Err × FS) FS :=
  match lookupInput input GKey.projectId with
  | none => .error (Err.keyError, fs)
  | some pidStr =>
      match parseNat? pidStr with
      | none => .error (Err.keyError, fs)
      | some project_id =>
          match find_project_by_id fs project_id with
          | .error e => .error (e, fs)
          | .ok project_dir =>
              let fs1 :=
                match lookupInput input GKey.description with
                | some d => setProjectConfig fs project_dir "description" (CVal.str d)
                | none => fs
              let step2 : Except (Err × FS) FS :=
                match lookupInput input GKey.parameters with
                | some _ => .ok (setProjectConfig fs1 project_dir "parameters" (CVal.map []))
                | none =>
                    match lookupInput input (GKey.paramKey 0) with
                    | some _ =>
                        match collect_parameters input (input.length + 1) 0 [] with
                        | .error e => .error (e, fs1)
                        | .ok ps =>
                            .ok (setProjectConfig fs1 project_dir "parameters" (CVal.map ps))
                    | none => .ok fs1
              match step2 with
              | .error e => .error e
              | .ok fs2 =>
                  match lookupInput input GKey.name with
                  | none => .ok fs2
                  | some nm =>
                      let new_dir := lstripSlash nm
                      if fs2.dirs.contains new_dir then .error (Err.conflict, fs2)
                      else .ok (moveDir fs2 project_dir new_dir)

/-- The language selector of `ProjectServer._projects_create`:
`"python" if g.input["language"] == "Py" else "csharp"`. -/
def projectsCreateLanguage (lang : String) : String :=
  if lang == "Py" then "python" else "csharp"

/-! ## The update handler as the composition of the spec's three steps -/

/-- Follows the spec's words: set the description, only if the field is
present in the request. -/
def updateDescriptionStep (input : Input) (project_dir : String) (fs : FS) : FS :=
  match lookupInput input GKey.description with
  | some d => setProjectConfig fs project_dir "description" (CVal.str d)
  | none => fs

/-- Follows the spec's words: clear all parameters on the empty-parameters
signal, or replace the full set from the indexed pair list, only if one of
the two forms is present in the request. -/
def updateParametersStep (input : Input) (project_dir : String) (fs : FS) :
    Except (Err × FS) FS :=
  match lookupInput input GKey.parameters with
  | some _ => .ok (setProjectConfig fs project_dir "parameters" (CVal.map []))
  | none =>
      match lookupInput input (GKey.paramKey 0) with
      | some _ =>
          match collect_parameters input (input.length + 1) 0 [] with
          | .error e => .error (e, fs)
          | .ok ps => .ok (setProjectConfig fs project_dir "parameters" (CVal.map ps))
      | none => .ok fs

/-- Follows the spec's words: rename to the working root joined with the
supplied name (leading separators stripped), only if the field is present;
Conflict if the target exists. -/
def updateRenameStep (input : Input) (project_dir : String) (fs : FS) :
    Except (Err × FS) FS :=
  match lookupInput input GKey.name with
  | none => .ok fs
  | some nm =>
      let new_dir := lstripSlash nm
      if fs.dirs.contains new_dir then .error (Err.conflict, fs)
      else .ok (moveDir fs project_dir new_dir)

/-- Follows the spec's words: description first, then parameters, then
rename last. -/
def updateSteps (input : Input) (project_dir : String) (fs : FS) :
    Except (Err × FS) FS :=
  match updateParametersStep input project_dir (updateDescriptionStep input project_dir fs) with
  | .error e => .error e
  | .ok fs2 => updateRenameStep input project_dir fs2

theorem projects_update_eq_steps (input : Input) (fs : FS) (pidStr : String)
    (pid : Nat) (project_dir : String)
    (h1 : lookupInput input GKey.projectId = some pidStr)
    (h2 : parseNat? pidStr = some pid)
    (h3 : find_project_by_id fs pid = .ok project_dir) :
    projects_update input fs = updateSteps input project_dir fs := by
  simp only [projects_update, updateSteps, updateDescriptionStep, updateParametersStep,
    updateRenameStep, h1, h2, h3]

/-- Claim C3: the three partial updates are applied independently, each
only if its field is present in the request, and in the fixed order
description, then parameters, then rename last. -/
theorem C3_update_order :
    ∀ (input : Input) (fs : FS) (pidStr : String) (pid : Nat) (project_dir : String),
      lookupInput input GKey.projectId = some pidStr →
      parseNat? pidStr = some pid →
      find_project_by_id fs pid = .ok project_dir →
      projects_update input fs = updateSteps input project_dir fs ∧
      (∀ fsx : FS, lookupInput input GKey.description = none →
          updateDescriptionStep input project_dir fsx = fsx) ∧
      (∀ fsx : FS, lookupInput input GKey.parameters = none →
          lookupInput input (GKey.paramKey 0) = none →
          updateParametersStep input project_dir fsx = .ok fsx) ∧
      (∀ fsx : FS, lookupInput input GKey.name = none →
          updateRenameStep input project_dir fsx = .ok fsx) := by
  intro input fs pidStr pid project_dir h1 h2 h3
  refine ⟨projects_update_eq_steps input fs pidStr pid project_dir h1 h2 h3, ?_, ?_, ?_⟩
  · intro fsx hd
    simp [updateDescriptionStep, hd]
  · intro fsx hp hp0
    simp [updateParametersStep, hp, hp0]
  · intro fsx hn
    simp [updateRenameStep, hn]

/-- Concrete instance of C3: a request carrying only a project id applies
no step and succeeds. -/
theorem C3_update_order_witness :
    projects_update [(GKey.projectId, "1")] ⟨["p"], [("p", [])], [("p", 1)], 2⟩ =
      updateSteps [(GKey.projectId, "1")] "p" ⟨["p"], [("p", [])], [("p", 1)], 2⟩ :=
  (C3_update_order [(GKey.projectId, "1")] ⟨["p"], [("p", [])], [("p", 1)], 2⟩
    "1" 1 "p" rfl (by decide) rfl).1

theorem updateDescriptionStep_dirs (input : Input) (project_dir : String) (fs : FS) :
    (updateDescriptionStep input project_dir fs).dirs = fs.dirs := by
  unfold updateDescriptionStep
  cases lookupInput input GKey.description <;> rfl

theorem updateParametersStep_dirs (input : Input) (project_dir : String)
    (fs fs2 : FS) (h : updateParametersStep input project_dir fs = .ok fs2) :
    fs2.dirs = fs.dirs := by
  unfold updateParametersStep at h
  cases hp : lookupInput input GKey.parameters with
  | some v => rw [hp] at h; cases h; rfl
  | none =>
      rw [hp] at h
      cases hp0 : lookupInput input (GKey.paramKey 0) with
      | some v0 =>
          rw [hp0] at h
          cases hc : collect_parameters input (input.length + 1) 0 [] with
          | error e => rw [hc] at h; cases h
          | ok ps => rw [hc] at h; cases h; rfl
      | none => rw [hp0] at h; cases h; rfl

theorem moveDir_contains_old (fs : FS) (oldDir newDir : String) (h : newDir ≠ oldDir) :
    (moveDir fs oldDir newDir).dirs.contains oldDir = false := by
  have hm : oldDir ∉ (moveDir fs oldDir newDir).dirs := by
    simp only [moveDir, List.mem_map]
    rintro ⟨d, hd, he⟩
    by_cases hdo : d = oldDir
    · rw [if_pos hdo] at he; exact h he
    · rw [if_neg hdo] at he; exact hdo he
  simpa using hm

theorem moveDir_contains_new (fs : FS) (oldDir newDir : String)
    (h : fs.dirs.contains oldDir = true) :
    (moveDir fs oldDir newDir).dirs.contains newDir = true := by
  have hmem : oldDir ∈ fs.dirs := by simpa using h
  have hm : newDir ∈ (moveDir fs oldDir newDir).dirs := by
    simp only [moveDir, List.mem_map]
    exact ⟨oldDir, hmem, by simp⟩
  simpa using hm

/-- Claim C2: an update carrying a new name computes the target as the
working root joined with the name after stripping leading separators; if
the target directory exists the call fails with Conflict and no directory
is moved, otherwise the project directory with its contents moves to the
target. -/
theorem C2_rename_target :
    ∀ (input : Input) (fs fs2 : FS) (pidStr : String) (pid : Nat)
      (project_dir nm : String),
      lookupInput input GKey.projectId = some pidStr →
      parseNat? pidStr = some pid →
      find_project_by_id fs pid = .ok project_dir →
      lookupInput input GKey.name = some nm →
      updateParametersStep input project_dir
          (updateDescriptionStep input project_dir fs) = .ok fs2 →
      fs2.dirs = fs.dirs ∧
      (fs2.dirs.contains (lstripSlash nm) = true →
          projects_update input fs = .error (Err.conflict, fs2)) ∧
      (fs2.dirs.contains (lstripSlash nm) = false →
          projects_update input fs = .ok (moveDir fs2 project_dir (lstripSlash nm)) ∧
          (project_dir ≠ lstripSlash nm →
              (moveDir fs2 project_dir (lstripSlash nm)).dirs.contains project_dir = false) ∧
          (fs.dirs.contains project_dir = true →
              (moveDir fs2 project_dir (lstripSlash nm)).dirs.contains (lstripSlash nm) = true)) := by
  intro input fs fs2 pidStr pid project_dir nm h1 h2 h3 hn hsteps
  have hdirs : fs2.dirs = fs.dirs := by
    rw [updateParametersStep_dirs input project_dir _ fs2 hsteps,
      updateDescriptionStep_dirs input project_dir fs]
  have heq := projects_update_eq_steps input fs pidStr pid project_dir h1 h2 h3
  refine ⟨hdirs, ?_, ?_⟩
  · intro hc
    rw [heq]
    simp only [updateSteps, hsteps, updateRenameStep, hn, hc]
    simp
  · intro hc
    refine ⟨?_, ?_, ?_⟩
    · rw [heq]
      simp only [updateSteps, hsteps, updateRenameStep, hn, hc]
      simp
    · intro hne
      exact moveDir_contains_old fs2 project_dir (lstripSlash nm) (Ne.symm hne)
    · intro hold
      exact moveDir_contains_new fs2 project_dir (lstripSlash nm) (by rw [hdirs]; exact hold)

/-- Concrete instance of C2: renaming project `old` to the existing
directory `taken` (supplied as `/taken`) is rejected with Conflict and the
filesystem is unchanged. -/
theorem C2_rename_target_witness :
    projects_update [(GKey.projectId, "1"), (GKey.name, "/taken")]
        ⟨["old", "taken"], [("old", []), ("taken", [])], [("old", 1), ("taken", 2)], 3⟩ =
      .error (Err.conflict,
        ⟨["old", "taken"], [("old", []), ("taken", [])], [("old", 1), ("taken", 2)], 3⟩) :=
  (C2_rename_target [(GKey.projectId, "1"), (GKey.name, "/taken")]
      ⟨["old", "taken"], [("old", []), ("taken", [])], [("old", 1), ("taken", 2)], 3⟩
      ⟨["old", "taken"], [("old", []), ("taken", [])], [("old", 1), ("taken", 2)], 3⟩
      "1" 1 "old" "/taken" rfl (by decide) rfl rfl rfl).2.1 (by decide)

/-- Claim C10: the create handler's language selector compares against the
literal `Py`: exactly `Py` scaffolds a Python project and every other
value, including `Python`, scaffolds a C# project. -/
theorem C10_create_language_selector :
    projectsCreateLanguage "Py" = "python" ∧
    (∀ lang : String, lang ≠ "Py" → projectsCreateLanguage lang = "csharp") ∧
    projectsCreateLanguage "Python" = "csharp" := by
  refine ⟨by decide, ?_, by decide⟩
  intro lang h
  have hb : (lang == "Py") = false := by
    simpa using h
  simp [projectsCreateLanguage, hb]

/-! ## Metadata derivation: language lookup and timestamps (C5, C6) -/

/-- The language string a project's sidecar stores, with the source's
default of `Python` for a sidecar without the key. -/
def storedLanguage (fs : FS) (dir : String) : String :=
  (Config.get (get_project_config fs dir) "language" (CVal.str "Python")).strD

/-- The stat records `_create_project` aggregates: the tracked files the
sync component would upload, or the directory's own stat record when that
set is empty. -/
def syncStats (env : PEnv) (dir : String) : List Stat :=
  if (env.filesToSync dir).length = 0 then [env.dirStat dir] else env.filesToSync dir

theorem get_project_config_local_id (fs : FS) (dir dir2 : String) :
    get_project_config (get_local_id fs dir).2 dir2 = get_project_config fs dir2 := by
  unfold get_local_id get_project_config
  cases lookupKey fs.ids dir <;> rfl

/-- Normal form of `create_project`: the record fields spelled out over the
pre-call state. -/
theorem create_project_eq (env : PEnv) (fs : FS) (dir : String) :
    create_project env fs dir =
      match lookupLanguage (storedLanguage fs dir) with
      | .error e => .error (e, (get_local_id fs dir).2)
      | .ok lang =>
          .ok ({ projectId := (get_local_id fs dir).1,
                 name := dir,
                 description :=
                   (Config.get (get_project_config fs dir) "description" (CVal.str "")).strD,
                 modified := listMax ((syncStats env dir).map Stat.st_mtime_ns),
                 created := listMin ((syncStats env dir).map Stat.st_ctime_ns),
                 language := lang,
                 parameters :=
                   (Config.get (get_project_config fs dir) "parameters" (CVal.map [])).mapD },
               (get_local_id fs dir).2) := by
  simp only [create_project, storedLanguage, syncStats, get_project_config_local_id]

theorem foldl_max_le (xs : List Int) (a : Int) :
    a ≤ xs.foldl max a ∧ ∀ x ∈ xs, x ≤ xs.foldl max a := by
  induction xs generalizing a with
  | nil => simp
  | cons y ys ih =>
      obtain ⟨h1, h2⟩ := ih (max a y)
      refine ⟨le_trans (le_max_left a y) h1, ?_⟩
      intro x hx
      rcases List.mem_cons.mp hx with rfl | hx
      · exact le_trans (le_max_right a x) h1
      · exact h2 x hx

theorem foldl_max_mem (xs : List Int) (a : Int) :
    xs.foldl max a = a ∨ xs.foldl max a ∈ xs := by
  induction xs generalizing a with
  | nil => left; rfl
  | cons y ys ih =>
      rcases ih (max a y) with h | h
      · rw [List.foldl_cons, h]
        rcases max_choice a y with hm | hm
        · left; exact hm
        · right; rw [hm]; exact List.mem_cons_self y ys
      · right
        rw [List.foldl_cons]
        exact List.mem_cons_of_mem y h

theorem foldl_min_le (xs : List Int) (a : Int) :
    xs.foldl min a ≤ a ∧ ∀ x ∈ xs, xs.foldl min a ≤ x := by
  induction xs generalizing a with
  | nil => simp
  | cons y ys ih =>
      obtain ⟨h1, h2⟩ := ih (min a y)
      refine ⟨le_trans h1 (min_le_left a y), ?_⟩
      intro x hx
      rcases List.mem_cons.mp hx with rfl | hx
      · exact le_trans h1 (min_le_right a x)
      · exact h2 x hx

theorem foldl_min_mem (xs : List Int) (a : Int) :
    xs.foldl min a = a ∨ xs.foldl min a ∈ xs := by
  induction xs generalizing a with
  | nil => left; rfl
  | cons y ys ih =>
      rcases ih (min a y) with h | h
      · rw [List.foldl_cons, h]
        rcases min_choice a y with hm | hm
        · left; exact hm
        · right; rw [hm]; exact List.mem_cons_self y ys
      · right
        rw [List.foldl_cons]
        exact List.mem_cons_of_mem y h

/-- On a nonempty list, `listMax` is an element and an upper bound. -/
theorem listMax_spec (xs : List Int) (h : xs ≠ []) :
    listMax xs ∈ xs ∧ ∀ x ∈ xs, x ≤ listMax xs := by
  match xs, h with
  | x :: ys, _ =>
      constructor
      · rcases foldl_max_mem ys x with h1 | h1
        · rw [listMax, h1]; exact List.mem_cons_self x ys
        · rw [listMax]; exact List.mem_cons_of_mem x h1
      · intro z hz
        rcases List.mem_cons.mp hz with rfl | hz
        · exact (foldl_max_le ys z).1
        · exact (foldl_max_le ys x).2 z hz

/-- On a nonempty list, `listMin` is an element and a lower bound. -/
theorem listMin_spec (xs : List Int) (h : xs ≠ []) :
    listMin xs ∈ xs ∧ ∀ x ∈ xs, listMin xs ≤ x := by
  match xs, h with
  | x :: ys, _ =>
      constructor
      · rcases foldl_min_mem ys x with h1 | h1
        · rw [listMin, h1]; exact List.mem_cons_self x ys
        · rw [listMin]; exact List.mem_cons_of_mem x h1
      · intro z hz
        rcases List.mem_cons.mp hz with rfl | hz
        · exact (foldl_min_le ys z).1
        · exact (foldl_min_le ys x).2 z hz

theorem lookupLanguage_Python : lookupLanguage "Python" = .ok QCLanguage.Python := rfl

theorem lookupLanguage_CSharp : lookupLanguage "CSharp" = .ok QCLanguage.CSharp := rfl

theorem lookupLanguage_other (s : String) (h1 : s ≠ "Python") (h2 : s ≠ "CSharp") :
    lookupLanguage s = .error Err.invalidState := by
  unfold lookupLanguage QCLanguage.members
  have b1 : (("Python" : String) == s) = false := beq_eq_false_iff_ne.mpr (Ne.symm h1)
  have b2 : (("CSharp" : String) == s) = false := beq_eq_false_iff_ne.mpr (Ne.symm h2)
  simp [List.find?, b1, b2]

/-- Claim C5: the record's modified time is the maximum mtime and its
created time the minimum ctime over the stat records of the files the sync
component would upload, falling back to the directory's own stat record
when that set is empty.  (Timestamps are compared as nanosecond epoch
instants; the UTC conversion changes only their rendering.) -/
theorem C5_timestamps :
    ∀ (env : PEnv) (fs : FS) (dir : String) (files : List Stat),
      env.filesToSync dir = files →
      (storedLanguage fs dir = "Python" ∨ storedLanguage fs dir = "CSharp") →
      ∃ (r : QCProjectRec) (fs1 : FS), create_project env fs dir = .ok (r, fs1) ∧
        (files ≠ [] →
            r.modified = listMax (files.map Stat.st_mtime_ns) ∧
            r.modified ∈ files.map Stat.st_mtime_ns ∧
            (∀ t ∈ files.map Stat.st_mtime_ns, t ≤ r.modified) ∧
            r.created = listMin (files.map Stat.st_ctime_ns) ∧
            r.created ∈ files.map Stat.st_ctime_ns ∧
            (∀ t ∈ files.map Stat.st_ctime_ns, r.created ≤ t)) ∧
        (files = [] →
            r.modified = (env.dirStat dir).st_mtime_ns ∧
            r.created = (env.dirStat dir).st_ctime_ns) := by
  intro env fs dir files hf hvalid
  have hlang : ∃ lang, lookupLanguage (storedLanguage fs dir) = .ok lang := by
    rcases hvalid with hv | hv
    · exact ⟨QCLanguage.Python, by rw [hv]; exact lookupLanguage_Python⟩
    · exact ⟨QCLanguage.CSharp, by rw [hv]; exact lookupLanguage_CSharp⟩
  obtain ⟨lang, hlang⟩ := hlang
  refine ⟨_, _, by rw [create_project_eq, hlang], ?_, ?_⟩
  · intro hne
    have hs : syncStats env dir = files := by
      have : files.length ≠ 0 := by simpa [List.length_eq_zero] using hne
      simp [syncStats, hf, this]
    have hmne : files.map Stat.st_mtime_ns ≠ [] := by simp [hne]
    have hcne : files.map Stat.st_ctime_ns ≠ [] := by simp [hne]
    obtain ⟨hm1, hm2⟩ := listMax_spec (files.map Stat.st_mtime_ns) hmne
    obtain ⟨hc1, hc2⟩ := listMin_spec (files.map Stat.st_ctime_ns) hcne
    exact ⟨by rw [hs], by rw [hs]; exact hm1, by rw [hs]; exact hm2,
      by rw [hs], by rw [hs]; exact hc1, by rw [hs]; exact hc2⟩
  · intro hnil
    have hs : syncStats env dir = [env.dirStat dir] := by
      simp [syncStats, hf, hnil]
    rw [hs]
    exact ⟨rfl, rfl⟩

/-- Concrete instance of C5: two tracked files with mtimes 5 and 9 and
ctimes 3 and 4 yield modified time 9 and created time 3. -/
theorem C5_timestamps_witness :
    ∃ (r : QCProjectRec) (fs1 : FS),
      create_project ⟨fun _ => [⟨5, 3⟩, ⟨9, 4⟩], fun _ => ⟨0, 0⟩⟩
          ⟨["p"], [("p", [])], [], 0⟩ "p" = .ok (r, fs1) ∧
      r.modified = 9 ∧ r.created = 3 := by
  obtain ⟨r, fs1, h, h2, _⟩ := C5_timestamps ⟨fun _ => [⟨5, 3⟩, ⟨9, 4⟩], fun _ => ⟨0, 0⟩⟩
    ⟨["p"], [("p", [])], [], 0⟩ "p" [⟨5, 3⟩, ⟨9, 4⟩] rfl (Or.inl rfl)
  obtain ⟨hm, _, _, hc, _, _⟩ := h2 (by decide)
  exact ⟨r, fs1, h, by rw [hm]; decide, by rw [hc]; decide⟩

/-- Claim C6: metadata derivation succeeds exactly when the stored language
string matches a declared enum member name, and fails with InvalidState for
any other stored value, never substituting a default language. -/
theorem C6_language_exact_match :
    ∀ (env : PEnv) (fs : FS) (dir s : String),
      lookupKey (get_project_config fs dir) "language" = some (CVal.str s) →
      ((∃ l, lookupLanguage s = .ok l) ↔ (s = "Python" ∨ s = "CSharp")) ∧
      (s = "Python" → ∃ r fs1, create_project env fs dir = .ok (r, fs1) ∧
          r.language = QCLanguage.Python) ∧
      (s = "CSharp" → ∃ r fs1, create_project env fs dir = .ok (r, fs1) ∧
          r.language = QCLanguage.CSharp) ∧
      (s ≠ "Python" → s ≠ "CSharp" →
          create_project env fs dir = .error (Err.invalidState, (get_local_id fs dir).2)) := by
  intro env fs dir s hstore
  have hsl : storedLanguage fs dir = s := by
    unfold storedLanguage Config.get
    rw [hstore]
    rfl
  refine ⟨?_, ?_, ?_, ?_⟩
  · constructor
    · rintro ⟨l, hl⟩
      by_cases h1 : s = "Python"
      · exact Or.inl h1
      · by_cases h2 : s = "CSharp"
        · exact Or.inr h2
        · rw [lookupLanguage_other s h1 h2] at hl
          cases hl
    · rintro (rfl | rfl)
      · exact ⟨QCLanguage.Python, lookupLanguage_Python⟩
      · exact ⟨QCLanguage.CSharp, lookupLanguage_CSharp⟩
  · rintro rfl
    exact ⟨_, _, by rw [create_project_eq, hsl, lookupLanguage_Python], rfl⟩
  · rintro rfl
    exact ⟨_, _, by rw [create_project_eq, hsl, lookupLanguage_CSharp], rfl⟩
  · intro h1 h2
    rw [create_project_eq, hsl, lookupLanguage_other s h1 h2]

/-- Concrete instance of C6: a sidecar storing the language `Java` makes
metadata derivation fail with InvalidState. -/
theorem C6_language_exact_match_witness :
    create_project ⟨fun _ => [⟨0, 0⟩], fun _ => ⟨0, 0⟩⟩
        ⟨["p"], [("p", [("language", CVal.str "Java")])], [], 0⟩ "p" =
      .error (Err.invalidState,
        ⟨["p"], [("p", [("language", CVal.str "Java")])], [("p", 0)], 1⟩) := by
  have := (C6_language_exact_match ⟨fun _ => [⟨0, 0⟩], fun _ => ⟨0, 0⟩⟩
    ⟨["p"], [("p", [("language", CVal.str "Java")])], [], 0⟩ "p" "Java"
    (by decide)).2.2.2 (by decide) (by decide)
  simpa using this

/-! ## Parameter set round trip (C4) -/

/-- The wire encoding of an indexed parameter pair list starting at `i`:
the keys `parameters[i][key]` / `parameters[i][value]` with their values. -/
def encodeParams : Nat → List (String × String) → Input
  | _, [] => []
  | i, (k, v) :: rest =>
      (GKey.paramKey i, k) :: (GKey.paramVal i, v) :: encodeParams (i + 1) rest

/-- An update request replacing the parameter set with an indexed pair
list, indices consecutive from 0. -/
def mkParamsInput (pidStr : String) (pairs : List (String × String)) : Input :=
  (GKey.projectId, pidStr) :: encodeParams 0 pairs

/-- An update request carrying the empty-parameters clear signal. -/
def mkClearInput (pidStr : String) : Input :=
  [(GKey.projectId, pidStr), (GKey.parameters, "")]

/-- The Python dict formed by inserting the pairs left to right. -/
def paramsFold (pairs : List (String × String)) : List (String × String) :=
  pairs.foldl (fun m kv => dictSet m kv.1 kv.2) []

theorem lookup_encodeParams_key (ps : List (String × String)) :
    ∀ (i j : Nat),
      lookupInput (encodeParams i ps) (GKey.paramKey (i + j)) = (ps.get? j).map Prod.fst := by
  induction ps with
  | nil => intro i j; simp [encodeParams, lookupInput, lookupKey]
  | cons kv rest ih =>
      intro i j
      obtain ⟨k, v⟩ := kv
      cases j with
      | zero => simp [encodeParams, lookupInput, lookupKey]
      | succ j2 =>
          rw [show i + (j2 + 1) = i + 1 + j2 from by omega]
          have hne1 : ¬ (GKey.paramKey i = GKey.paramKey (i + 1 + j2)) := by
            intro hcon; injection hcon with hcon2; omega
          have hne2 : ¬ (GKey.paramVal i = GKey.paramKey (i + 1 + j2)) := by
            intro hcon; cases hcon
          simp only [encodeParams, lookupInput, lookupKey]
          rw [if_neg hne1, if_neg hne2]
          simpa [lookupInput] using ih (i + 1) j2

theorem lookup_encodeParams_val (ps : List (String × String)) :
    ∀ (i j : Nat),
      lookupInput (encodeParams i ps) (GKey.paramVal (i + j)) = (ps.get? j).map Prod.snd := by
  induction ps with
  | nil => intro i j; simp [encodeParams, lookupInput, lookupKey]
  | cons kv rest ih =>
      intro i j
      obtain ⟨k, v⟩ := kv
      cases j with
      | zero => simp [encodeParams, lookupInput, lookupKey]
      | succ j2 =>
          rw [show i + (j2 + 1) = i + 1 + j2 from by omega]
          have hne1 : ¬ (GKey.paramKey i = GKey.paramVal (i + 1 + j2)) := by
            intro hcon; cases hcon
          have hne2 : ¬ (GKey.paramVal i = GKey.paramVal (i + 1 + j2)) := by
            intro hcon; injection hcon with hcon2; omega
          simp only [encodeParams, lookupInput, lookupKey]
          rw [if_neg hne1, if_neg hne2]
          simpa [lookupInput] using ih (i + 1) j2

theorem lookup_encodeParams_other (ps : List (String × String)) (k : GKey)
    (hk : ∀ j : Nat, GKey.paramKey j ≠ k ∧ GKey.paramVal j ≠ k) :
    ∀ i : Nat, lookupInput (encodeParams i ps) k = none := by
  induction ps with
  | nil => intro i; simp [encodeParams, lookupInput, lookupKey]
  | cons kv rest ih =>
      intro i
      obtain ⟨a, b⟩ := kv
      simp only [encodeParams, lookupInput, lookupKey]
      rw [if_neg (hk i).1, if_neg (hk i).2]
      simpa [lookupInput] using ih (i + 1)

theorem lookup_mkParamsInput_pid (pidStr : String) (pairs : List (String × String)) :
    lookupInput (mkParamsInput pidStr pairs) GKey.projectId = some pidStr := by
  simp [mkParamsInput, lookupInput, lookupKey]

theorem lookup_mkParamsInput_key (pidStr : String) (pairs : List (String × String)) (j : Nat) :
    lookupInput (mkParamsInput pidStr pairs) (GKey.paramKey j) = (pairs.get? j).map Prod.fst := by
  unfold mkParamsInput lookupInput
  simp only [lookupKey]
  rw [if_neg (by intro hcon; cases hcon)]
  simpa [lookupInput] using lookup_encodeParams_key pairs 0 j

theorem lookup_mkParamsInput_val (pidStr : String) (pairs : List (String × String)) (j : Nat) :
    lookupInput (mkParamsInput pidStr pairs) (GKey.paramVal j) = (pairs.get? j).map Prod.snd := by
  unfold mkParamsInput lookupInput
  simp only [lookupKey]
  rw [if_neg (by intro hcon; cases hcon)]
  simpa [lookupInput] using lookup_encodeParams_val pairs 0 j

theorem lookup_mkParamsInput_fixed (pidStr : String) (pairs : List (String × String))
    (k : GKey) (h1 : ¬ (GKey.projectId = k))
    (hk : ∀ j : Nat, GKey.paramKey j ≠ k ∧ GKey.paramVal j ≠ k) :
    lookupInput (mkParamsInput pidStr pairs) k = none := by
  unfold mkParamsInput lookupInput
  simp only [lookupKey]
  rw [if_neg h1]
  simpa [lookupInput] using lookup_encodeParams_other pairs k hk 0

theorem encodeParams_length (ps : List (String × String)) :
    ∀ i : Nat, (encodeParams i ps).length = 2 * ps.length := by
  induction ps with
  | nil => intro i; simp [encodeParams]
  | cons kv rest ih =>
      intro i
      obtain ⟨k, v⟩ := kv
      simp [encodeParams, ih (i + 1)]
      omega

/-- With enough fuel, the collection loop folds exactly the pairs whose
consecutive indices the request carries. -/
theorem collect_parameters_spec (input : Input) :
    ∀ (ps : List (String × String)) (i : Nat) (acc : List (String × String)) (fuel : Nat),
      ps.length < fuel →
      (∀ j : Nat, lookupInput input (GKey.paramKey (i + j)) = (ps.get? j).map Prod.fst) →
      (∀ j : Nat, lookupInput input (GKey.paramVal (i + j)) = (ps.get? j).map Prod.snd) →
      collect_parameters input fuel i acc =
        .ok (ps.foldl (fun m kv => dictSet m kv.1 kv.2) acc) := by
  intro ps
  induction ps with
  | nil =>
      intro i acc fuel hfuel hk hv
      match fuel, hfuel with
      | fuel + 1, _ =>
          have h0 : lookupInput input (GKey.paramKey i) = none := by simpa using hk 0
          simp [collect_parameters, h0]
  | cons kv rest ih =>
      intro i acc fuel hfuel hk hv
      obtain ⟨k, v⟩ := kv
      match fuel, hfuel with
      | fuel + 1, hfuel =>
          have h0k : lookupInput input (GKey.paramKey i) = some k := by simpa using hk 0
          have h0v : lookupInput input (GKey.paramVal i) = some v := by simpa using hv 0
          have hk2 : ∀ j : Nat,
              lookupInput input (GKey.paramKey (i + 1 + j)) = (rest.get? j).map Prod.fst := by
            intro j
            have hx := hk (j + 1)
            rw [show i + (j + 1) = i + 1 + j from by omega] at hx
            simpa using hx
          have hv2 : ∀ j : Nat,
              lookupInput input (GKey.paramVal (i + 1 + j)) = (rest.get? j).map Prod.snd := by
            intro j
            have hx := hv (j + 1)
            rw [show i + (j + 1) = i + 1 + j from by omega] at hx
            simpa using hx
          have hlen : rest.length < fuel := by
            simp only [List.length_cons] at hfuel
            omega
          have hrec := ih (i + 1) (dictSet acc k v) fuel hlen hk2 hv2
          simp [collect_parameters, h0k, h0v, hrec]

theorem foldl_dictSet_append (ps : List (String × String)) :
    ∀ acc : List (String × String),
      (∀ k ∈ ps.map Prod.fst, lookupKey acc k = none) →
      (ps.map Prod.fst).Nodup →
      ps.foldl (fun m kv => dictSet m kv.1 kv.2) acc = acc ++ ps := by
  induction ps with
  | nil => intro acc _ _; simp
  | cons kv rest ih =>
      intro acc hdisj hnodup
      obtain ⟨k, v⟩ := kv
      have hmap : ((k, v) :: rest).map Prod.fst = k :: rest.map Prod.fst := rfl
      obtain ⟨hknot, hrest⟩ := List.nodup_cons.mp (hmap ▸ hnodup)
      have hkacc : lookupKey acc k = none := hdisj k (by simp)
      rw [List.foldl_cons]
      have hstep : dictSet acc k v = acc ++ [(k, v)] := dictSet_absent acc k v hkacc
      rw [hstep]
      have hdisj2 : ∀ k2 ∈ rest.map Prod.fst, lookupKey (acc ++ [(k, v)]) k2 = none := by
        intro k2 hk2
        have hne : ¬ (k = k2) := by
          intro hcon; subst hcon; exact hknot hk2
        rw [lookupKey_append_none _ _ _ (hdisj k2 (by simp [hk2]))]
        simp [lookupKey, hne]
      rw [ih (acc ++ [(k, v)]) hdisj2 hrest]
      simp

theorem paramsFold_eq_self (pairs : List (String × String))
    (h : (pairs.map Prod.fst).Nodup) : paramsFold pairs = pairs := by
  unfold paramsFold
  rw [foldl_dictSet_append pairs [] (by intro k _; rfl) h]
  simp

theorem get_setProjectConfig_same (fs : FS) (dir key : String) (v : CVal) :
    get_project_config (setProjectConfig fs dir key v) dir =
      Config.set (get_project_config fs dir) key v := by
  unfold setProjectConfig get_project_config
  simp [lookupKey_dictSet]

theorem Config.get_set_same (c : Config) (key : String) (v dflt : CVal) :
    Config.get (Config.set c key v) key dflt = v := by
  unfold Config.get Config.set
  simp [lookupKey_dictSet]

theorem Config.get_set_other (c : Config) (key key2 : String) (v dflt : CVal)
    (h : key2 ≠ key) : Config.get (Config.set c key v) key2 dflt = Config.get c key2 dflt := by
  unfold Config.get Config.set
  simp [lookupKey_dictSet, h]

theorem storedLanguage_set_parameters (fs : FS) (dir : String) (v : CVal) :
    storedLanguage (setProjectConfig fs dir "parameters" v) dir = storedLanguage fs dir := by
  unfold storedLanguage
  rw [get_setProjectConfig_same,
    Config.get_set_other _ _ _ _ _ (by decide : ("language" : String) ≠ "parameters")]

/-- Reading back after the parameter set was stored: the record carries
exactly the stored map. -/
theorem create_project_parameters (env : PEnv) (fs : FS) (dir : String)
    (ps : List (String × String))
    (hvalid : storedLanguage fs dir = "Python" ∨ storedLanguage fs dir = "CSharp") :
    ∃ (r : QCProjectRec) (fs2 : FS),
      create_project env (setProjectConfig fs dir "parameters" (CVal.map ps)) dir =
        .ok (r, fs2) ∧ r.parameters = ps := by
  have hsl := storedLanguage_set_parameters fs dir (CVal.map ps)
  have hlang : ∃ lang,
      lookupLanguage (storedLanguage (setProjectConfig fs dir "parameters" (CVal.map ps)) dir) =
        .ok lang := by
    rcases hvalid with hv | hv
    · exact ⟨QCLanguage.Python, by rw [hsl, hv]; exact lookupLanguage_Python⟩
    · exact ⟨QCLanguage.CSharp, by rw [hsl, hv]; exact lookupLanguage_CSharp⟩
  obtain ⟨lang, hlang⟩ := hlang
  exact ⟨_, _, by rw [create_project_eq, hlang],
    by simp [get_setProjectConfig_same, Config.get_set_same, CVal.mapD]⟩

/-- Claim C4: clearing parameters and reading back yields the empty set;
replacing them from an indexed pair list (indices consecutive from 0,
nonempty since an empty indexed list has no wire form) and reading back
yields exactly the dict formed from those pairs, which for distinct keys is
the pair list itself. -/
theorem C4_parameters_round_trip :
    ∀ (env : PEnv) (fs : FS) (pidStr : String) (pid : Nat) (dir : String)
      (pairs : List (String × String)),
      parseNat? pidStr = some pid →
      find_project_by_id fs pid = .ok dir →
      (storedLanguage fs dir = "Python" ∨ storedLanguage fs dir = "CSharp") →
      (projects_update (mkClearInput pidStr) fs =
          .ok (setProjectConfig fs dir "parameters" (CVal.map [])) ∧
        ∃ (r : QCProjectRec) (fs2 : FS),
          create_project env (setProjectConfig fs dir "parameters" (CVal.map [])) dir =
            .ok (r, fs2) ∧ r.parameters = []) ∧
      (pairs ≠ [] →
        projects_update (mkParamsInput pidStr pairs) fs =
            .ok (setProjectConfig fs dir "parameters" (CVal.map (paramsFold pairs))) ∧
        (∃ (r : QCProjectRec) (fs2 : FS),
          create_project env (setProjectConfig fs dir "parameters"
              (CVal.map (paramsFold pairs))) dir =
            .ok (r, fs2) ∧ r.parameters = paramsFold pairs) ∧
        ((pairs.map Prod.fst).Nodup → paramsFold pairs = pairs)) := by
  intro env fs pidStr pid dir pairs hparse hfind hvalid
  constructor
  · constructor
    · simp [projects_update, mkClearInput, lookupInput, lookupKey, hparse, hfind]
    · exact create_project_parameters env fs dir [] hvalid
  · intro hne
    refine ⟨?_, create_project_parameters env fs dir (paramsFold pairs) hvalid,
      paramsFold_eq_self pairs⟩
    obtain ⟨⟨k0, v0⟩, rest, rfl⟩ : ∃ hd tl, pairs = hd :: tl := by
      cases pairs with
      | nil => exact absurd rfl hne
      | cons hd tl => exact ⟨hd, tl, rfl⟩
    have hfuel : ((k0, v0) :: rest).length < (mkParamsInput pidStr ((k0, v0) :: rest)).length + 1 := by
      simp [mkParamsInput, encodeParams_length]
      omega
    have hcoll := collect_parameters_spec (mkParamsInput pidStr ((k0, v0) :: rest))
      ((k0, v0) :: rest) 0 [] ((mkParamsInput pidStr ((k0, v0) :: rest)).length + 1) hfuel
      (by intro j; simpa using lookup_mkParamsInput_key pidStr ((k0, v0) :: rest) j)
      (by intro j; simpa using lookup_mkParamsInput_val pidStr ((k0, v0) :: rest) j)
    have hdesc : lookupInput (mkParamsInput pidStr ((k0, v0) :: rest)) GKey.description = none :=
      lookup_mkParamsInput_fixed _ _ _ (by intro hcon; cases hcon)
        (fun j => ⟨(by intro hcon; cases hcon), (by intro hcon; cases hcon)⟩)
    have hpar : lookupInput (mkParamsInput pidStr ((k0, v0) :: rest)) GKey.parameters = none :=
      lookup_mkParamsInput_fixed _ _ _ (by intro hcon; cases hcon)
        (fun j => ⟨(by intro hcon; cases hcon), (by intro hcon; cases hcon)⟩)
    have hnm : lookupInput (mkParamsInput pidStr ((k0, v0) :: rest)) GKey.name = none :=
      lookup_mkParamsInput_fixed _ _ _ (by intro hcon; cases hcon)
        (fun j => ⟨(by intro hcon; cases hcon), (by intro hcon; cases hcon)⟩)
    have hk0 : lookupInput (mkParamsInput pidStr ((k0, v0) :: rest)) (GKey.paramKey 0) =
        some k0 := by
      simpa using lookup_mkParamsInput_key pidStr ((k0, v0) :: rest) 0
    simp [projects_update, lookup_mkParamsInput_pid, hparse, hfind, hdesc, hpar, hnm,
      hk0, hcoll, paramsFold]

/-- Concrete instance of C4: clearing then reading yields no parameters;
setting `a=1, b=2` then reading yields exactly that map. -/
theorem C4_parameters_round_trip_witness :
    projects_update (mkClearInput "1") ⟨["p"], [("p", [])], [("p", 1)], 2⟩ =
      .ok ⟨["p"], [("p", [("parameters", CVal.map [])])], [("p", 1)], 2⟩ ∧
    projects_update (mkParamsInput "1" [("a", "1"), ("b", "2")])
        ⟨["p"], [("p", [])], [("p", 1)], 2⟩ =
      .ok ⟨["p"], [("p", [("parameters", CVal.map [("a", "1"), ("b", "2")])])], [("p", 1)], 2⟩ := by
  have h := C4_parameters_round_trip ⟨fun _ => [⟨0, 0⟩], fun _ => ⟨0, 0⟩⟩
    ⟨["p"], [("p", [])], [("p", 1)], 2⟩ "1" 1 "p" [("a", "1"), ("b", "2")]
    (by decide) rfl (Or.inl rfl)
  refine ⟨by simpa using h.1.1, ?_⟩
  have h2 := (h.2 (by decide)).1
  simpa using h2

/-! ## Listing all projects: one record per sidecar directory, stable ids (C7) -/

/-- A project's stored language matches a declared enum member. -/
def langValid (fs : FS) (d : String) : Prop :=
  storedLanguage fs d = "Python" ∨ storedLanguage fs d = "CSharp"

def isErr {ε α : Type} : Except ε α → Bool
  | .error _ => true
  | .ok _ => false

theorem storedLanguage_congr (fs fs2 : FS) (d : String) (h : fs2.configs = fs.configs) :
    storedLanguage fs2 d = storedLanguage fs d := by
  unfold storedLanguage get_project_config
  rw [h]

theorem get_project_config_congr (fs fs2 : FS) (d : String) (h : fs2.configs = fs.configs) :
    get_project_config fs2 d = get_project_config fs d := by
  unfold get_project_config
  rw [h]

theorem get_local_id_configs (fs : FS) (d : String) :
    (get_local_id fs d).2.configs = fs.configs := by
  unfold get_local_id
  cases lookupKey fs.ids d <;> rfl

theorem get_local_id_dirs (fs : FS) (d : String) :
    (get_local_id fs d).2.dirs = fs.dirs := by
  unfold get_local_id
  cases lookupKey fs.ids d <;> rfl

theorem get_local_id_mono (fs : FS) (d d2 : String) (i : Nat)
    (h : lookupKey fs.ids d2 = some i) :
    lookupKey (get_local_id fs d).2.ids d2 = some i := by
  unfold get_local_id
  cases hx : lookupKey fs.ids d with
  | some j => simpa using h
  | none =>
      simp only []
      exact lookupKey_append_left _ _ _ _ h

theorem get_local_id_self (fs : FS) (d : String) :
    lookupKey (get_local_id fs d).2.ids d = some (get_local_id fs d).1 := by
  unfold get_local_id
  cases hx : lookupKey fs.ids d with
  | some j => simpa using hx
  | none =>
      simp only []
      rw [lookupKey_append_none _ _ _ hx]
      simp [lookupKey]

theorem create_project_effects (env : PEnv) (fs : FS) (d : String)
    (r : QCProjectRec) (fsa : FS) (h : create_project env fs d = .ok (r, fsa)) :
    fsa.configs = fs.configs ∧ fsa.dirs = fs.dirs ∧
    (∀ (d2 : String) (i : Nat), lookupKey fs.ids d2 = some i →
        lookupKey fsa.ids d2 = some i) ∧
    lookupKey fsa.ids d = some r.projectId := by
  rw [create_project_eq] at h
  cases hl : lookupLanguage (storedLanguage fs d) with
  | error e => rw [hl] at h; simp at h
  | ok lang =>
      rw [hl] at h
      simp only [Except.ok.injEq, Prod.mk.injEq] at h
      obtain ⟨hr, hfs⟩ := h
      subst hfs
      refine ⟨get_local_id_configs fs d, get_local_id_dirs fs d,
        fun d2 i hi => get_local_id_mono fs d d2 i hi, ?_⟩
      rw [← hr]
      exact get_local_id_self fs d

theorem create_project_determined (env : PEnv) (fs fs2 : FS) (d : String)
    (r : QCProjectRec) (fsa : FS)
    (h : create_project env fs d = .ok (r, fsa))
    (hid : lookupKey fs2.ids d = some r.projectId)
    (hcfg : fs2.configs = fs.configs) :
    create_project env fs2 d = .ok (r, fs2) := by
  have hstored : storedLanguage fs2 d = storedLanguage fs d :=
    storedLanguage_congr fs fs2 d hcfg
  have hgl2 : get_local_id fs2 d = (r.projectId, fs2) := by
    unfold get_local_id
    rw [hid]
  rw [create_project_eq] at h
  rw [create_project_eq, hstored]
  cases hl : lookupLanguage (storedLanguage fs d) with
  | error e => rw [hl] at h; simp at h
  | ok lang =>
      rw [hl] at h
      simp only [Except.ok.injEq, Prod.mk.injEq] at h
      obtain ⟨hr, hfs⟩ := h
      have hpid : r.projectId = (get_local_id fs d).1 := by rw [← hr]
      simp only [Except.ok.injEq, Prod.mk.injEq]
      refine ⟨?_, by rw [hgl2]⟩
      rw [← hr]
      simp [hgl2, hpid, get_project_config_congr fs fs2 d hcfg]

theorem create_projects_cons_ok (env : PEnv) (d : String) (ds : List String)
    (fs : FS) (rs : List QCProjectRec) (fs1 : FS)
    (h : create_projects env (d :: ds) fs = .ok (rs, fs1)) :
    ∃ (r : QCProjectRec) (fsa : FS) (rs2 : List QCProjectRec),
      create_project env fs d = .ok (r, fsa) ∧
      create_projects env ds fsa = .ok (rs2, fs1) ∧ rs = r :: rs2 := by
  simp only [create_projects] at h
  cases hc : create_project env fs d with
  | error e =>
      rw [hc] at h
      dsimp only [] at h
      cases h
  | ok pr =>
      obtain ⟨r, fsa⟩ := pr
      rw [hc] at h
      dsimp only [] at h
      cases hcs : create_projects env ds fsa with
      | error e =>
          rw [hcs] at h
          dsimp only [] at h
          cases h
      | ok pp =>
          obtain ⟨rs2, fs2⟩ := pp
          rw [hcs] at h
          dsimp only [] at h
          simp only [Except.ok.injEq, Prod.mk.injEq] at h
          obtain ⟨hrs, hfs⟩ := h
          subst hfs
          exact ⟨r, fsa, rs2, rfl, hcs, hrs.symm⟩

theorem create_projects_effects (env : PEnv) (ds : List String) :
    ∀ (fs : FS) (rs : List QCProjectRec) (fs1 : FS),
      create_projects env ds fs = .ok (rs, fs1) →
      fs1.configs = fs.configs ∧ fs1.dirs = fs.dirs ∧
      (∀ (d2 : String) (i : Nat), lookupKey fs.ids d2 = some i →
          lookupKey fs1.ids d2 = some i) := by
  induction ds with
  | nil =>
      intro fs rs fs1 h
      simp only [create_projects, Except.ok.injEq, Prod.mk.injEq] at h
      obtain ⟨_, hfs⟩ := h
      subst hfs
      exact ⟨rfl, rfl, fun _ _ hi => hi⟩
  | cons d ds ih =>
      intro fs rs fs1 h
      obtain ⟨r, fsa, rs2, hc, hcs, hrs⟩ := create_projects_cons_ok env d ds fs rs fs1 h
      obtain ⟨e1, e2, e3, _⟩ := create_project_effects env fs d r fsa hc
      obtain ⟨f1, f2, f3⟩ := ih fsa rs2 fs1 hcs
      exact ⟨f1.trans e1, f2.trans e2, fun d2 i hi => f3 d2 i (e3 d2 i hi)⟩

theorem create_projects_stable (env : PEnv) (ds : List String) :
    ∀ (fs : FS) (rs : List QCProjectRec) (fs1 : FS),
      create_projects env ds fs = .ok (rs, fs1) →
      create_projects env ds fs1 = .ok (rs, fs1) := by
  induction ds with
  | nil =>
      intro fs rs fs1 h
      simp only [create_projects, Except.ok.injEq, Prod.mk.injEq] at h
      obtain ⟨hrs, hfs⟩ := h
      subst hfs
      simp only [create_projects, Except.ok.injEq, Prod.mk.injEq]
      exact ⟨hrs, trivial⟩
  | cons d ds ih =>
      intro fs rs fs1 h
      obtain ⟨r, fsa, rs2, hc, hcs, hrs⟩ := create_projects_cons_ok env d ds fs rs fs1 h
      obtain ⟨e1, e2, e3, e4⟩ := create_project_effects env fs d r fsa hc
      obtain ⟨f1, f2, f3⟩ := create_projects_effects env ds fsa rs2 fs1 hcs
      have hid1 : lookupKey fs1.ids d = some r.projectId := f3 d r.projectId e4
      have hcfg1 : fs1.configs = fs.configs := f1.trans e1
      have hhead := create_project_determined env fs fs1 d r fsa hc hid1 hcfg1
      have htail := ih fsa rs2 fs1 hcs
      subst hrs
      simp [create_projects, hhead, htail]

theorem create_projects_names (env : PEnv) (ds : List String) :
    ∀ fs : FS, (∀ d ∈ ds, langValid fs d) →
      ∃ (rs : List QCProjectRec) (fs1 : FS),
        create_projects env ds fs = .ok (rs, fs1) ∧
        rs.map QCProjectRec.name = ds := by
  induction ds with
  | nil => intro fs _; exact ⟨[], fs, rfl, rfl⟩
  | cons d ds ih =>
      intro fs hval
      have hv := hval d (by simp)
      have hlang : ∃ lang, lookupLanguage (storedLanguage fs d) = .ok lang := by
        rcases hv with hv | hv
        · exact ⟨QCLanguage.Python, by rw [hv]; exact lookupLanguage_Python⟩
        · exact ⟨QCLanguage.CSharp, by rw [hv]; exact lookupLanguage_CSharp⟩
      obtain ⟨lang, hlang⟩ := hlang
      obtain ⟨R, fsa2, hcR, hname, hfsa⟩ :
          ∃ (R : QCProjectRec) (fsa2 : FS), create_project env fs d = .ok (R, fsa2) ∧
            R.name = d ∧ fsa2 = (get_local_id fs d).2 :=
        ⟨_, _, by rw [create_project_eq, hlang], rfl, rfl⟩
      subst hfsa
      have hval2 : ∀ d2 ∈ ds, langValid (get_local_id fs d).2 d2 := by
        intro d2 hd2
        have hx := hval d2 (by simp [hd2])
        unfold langValid
        rw [storedLanguage_congr fs _ d2 (get_local_id_configs fs d)]
        exact hx
      obtain ⟨rs, fs1, hcs, hnames⟩ := ih (get_local_id fs d).2 hval2
      exact ⟨R :: rs, fs1, by simp [create_projects, hcR, hcs], by simp [hname, hnames]⟩

/-- Counterexample to claim C7 as stated: the list-all read request can
return an error even though no project id was supplied — one sidecar
storing the unknown language `Java` makes the whole listing fail. -/
theorem C7_list_all_counterexample :
    isErr (projects_read ⟨fun _ => [⟨0, 0⟩], fun _ => ⟨0, 0⟩⟩ []
      ⟨["proj"], [("proj", [("language", CVal.str "Java")])], [], 0⟩) = true := by
  decide

/-- Claim C7, amended: a read request with no project id returns exactly
one metadata record per sidecar directory under the root provided every
listed project's stored language matches a declared enum member (in
particular the empty case yields the empty list and no error), and the
records, including their ids, are stable across repeated calls. -/
theorem C7_list_all_per_sidecar_stable_ids :
    ∀ (env : PEnv) (input : Input) (fs : FS),
      lookupInput input GKey.projectId = none →
      ((fs.configs = [] → projects_read env input fs = .ok ([], fs)) ∧
       ((∀ d ∈ sidecarDirs fs, langValid fs d) →
          ∃ (rs : List QCProjectRec) (fs1 : FS),
            projects_read env input fs = .ok (rs, fs1) ∧
            rs.map QCProjectRec.name = sidecarDirs fs) ∧
       (∀ (rs : List QCProjectRec) (fs1 : FS),
          projects_read env input fs = .ok (rs, fs1) →
          projects_read env input fs1 = .ok (rs, fs1))) := by
  intro env input fs hnoid
  refine ⟨?_, ?_, ?_⟩
  · intro hempty
    simp [projects_read, hnoid, sidecarDirs, hempty, create_projects]
  · intro hval
    obtain ⟨rs, fs1, hcs, hnames⟩ := create_projects_names env (sidecarDirs fs) fs hval
    exact ⟨rs, fs1, by simp [projects_read, hnoid, hcs], hnames⟩
  · intro rs fs1 h
    simp only [projects_read, hnoid] at h ⊢
    have hcfg : fs1.configs = fs.configs :=
      (create_projects_effects env (sidecarDirs fs) fs rs fs1 h).1
    have hsd : sidecarDirs fs1 = sidecarDirs fs := by
      unfold sidecarDirs
      rw [hcfg]
    rw [hsd]
    exact create_projects_stable env (sidecarDirs fs) fs rs fs1 h

/-- Concrete instance of the amended C7: one project directory with a
default sidecar lists as exactly one record named after it, and a second
read returns the identical records and ids. -/
theorem C7_list_all_per_sidecar_stable_ids_witness :
    ∃ (rs : List QCProjectRec) (fs1 : FS),
      projects_read ⟨fun _ => [⟨0, 0⟩], fun _ => ⟨0, 0⟩⟩ []
          ⟨["p"], [("p", [])], [], 0⟩ = .ok (rs, fs1) ∧
      rs.map QCProjectRec.name = ["p"] := by
  have h := (C7_list_all_per_sidecar_stable_ids ⟨fun _ => [⟨0, 0⟩], fun _ => ⟨0, 0⟩⟩ []
    ⟨["p"], [("p", [])], [], 0⟩ rfl).2.1 ?_
  · simpa [sidecarDirs] using h
  · intro d hd
    simp [sidecarDirs] at hd
    subst hd
    exact Or.inl rfl

/-- Concrete instance of C10: the value `C#` selects the C# scaffold. -/
theorem C10_create_language_selector_witness :
    projectsCreateLanguage "C#" = "csharp" :=
  C10_create_language_selector.2.1 "C#" (by decide)

end LeanCLI
